import Mathlib

/-!
# Verification of the `r.viewshed.total` orchestration script

Shallow embedding of `src/r.viewshed.total.py` (GRASS GIS script, function
`main`).  The script

1. reads observer points as comma-separated lines (`v.out.ascii` output),
2. resolves a worker count from `multiprocessing.cpu_count()` and the
   `WORKERS` environment variable,
3. submits one `r.viewshed` process per point, waiting on a whole batch
   each time the parsed jobId is divisible by the worker count,
4. for each input index `i` busy-polls until the artifact
   `tempViewsh{i+1}` exists, reads `r.stats -c` output and extracts
   `splitlines()[1].split(' ')[1]` as the visible-cell count,
5. writes the `(x, y, count)` tuples into a temporary vector, rasterizes
   it with `v.to.rast`, and removes the temporary rasters and vector.

External processes are modelled as oracles: `found j t` says whether the
artifact of job `j` is observed present at the `t`-th poll attempt, and
`statsFor j` gives the lines of the `r.stats` report for job `j`.
Python `float(...)` conversion of the coordinate fields is not modelled
(floating point); result tuples carry the raw coordinate field strings.
Python string/int primitives (`strip`, `split`, `int`) are embedded below
as executable functions over `List Char` (ASCII semantics).
-/

/-- Effects performed by the run, in program order.  `submit c` is a
`grass.start_command("r.viewshed", ...)` call for parsed jobId `c`,
`wait c` is `process[c].wait()`, `stats j` is the
`grass.read_command("r.stats", ...)` call for artifact `tempViewsh{j}`,
`rasterize` is the `v.to.rast` call and the two `remove` actions are the
final `g.remove` calls. -/
inductive Act where
  | submit (c : Int)
  | wait (c : Int)
  | stats (j : Nat)
  | rasterize
  | removeRasters
  | removeVector
deriving DecidableEq, Repr

/-- Python 2 `str` whitespace for `strip()`: space, tab, LF, CR, VT, FF. -/
def pyIsSpace (c : Char) : Bool :=
  c = ' ' || c = '\t' || c = '\n' || c = '\x0d' || c = '\x0b' || c = '\x0c'

/-- Python `str.strip()`: drop leading and trailing whitespace. -/
def pyStrip (s : String) : String :=
  String.mk (((s.toList.dropWhile pyIsSpace).reverse.dropWhile pyIsSpace).reverse)

/-- Auxiliary for `pySplitChar`: split a character list at a separator. -/
def splitCharAux (sep : Char) : List Char → List Char → List (List Char)
  | [], cur => [cur.reverse]
  | c :: cs, cur =>
      if c = sep then cur.reverse :: splitCharAux sep cs []
      else splitCharAux sep cs (c :: cur)

/-- Python `str.split(sep)` for a one-character separator (the script uses
`split(',')` and `split(' ')`).  `"".split(',') = ['']`,
`"a,,b".split(',') = ['a','','b']`. -/
def pySplitChar (sep : Char) (s : String) : List String :=
  (splitCharAux sep s.toList []).map String.mk

/-- Value of a nonempty all-digit character list, else `none`. -/
def digitsVal (l : List Char) : Option Nat :=
  if l ≠ [] ∧ l.all Char.isDigit then
    some (l.foldl (fun a c => a * 10 + (c.toNat - 48)) 0)
  else none

/-- Python `int(s)` on a string: optional surrounding whitespace, optional
single sign, then decimal digits; anything else raises `ValueError`
(modelled as `none`). -/
def pyInt (s : String) : Option Int :=
  match (pyStrip s).toList with
  | [] => none
  | c :: rest =>
      if c = '+' then (digitsVal rest).map Int.ofNat
      else if c = '-' then (digitsVal rest).map (fun n => -(n : Int))
      else (digitsVal (c :: rest)).map Int.ofNat

/-- Lines 133-136: build `pointList` from the `v.out.ascii` output lines:
keep each non-blank line as `line.strip().split(',')`; blank lines are
skipped.  No validation is performed. -/
def pointListOf (lines : List String) : List (List String) :=
  lines.filterMap (fun l => if l = "" then none else some (pySplitChar ',' (pyStrip l)))

/-- Line 156: `count = int(point[2])` — the jobId of a parsed point, or
`none` when the access or conversion raises (`IndexError`/`ValueError`). -/
def jobIdOf (p : List String) : Option Int :=
  (p.get? 2).bind pyInt

/-- Lines 145-152: `workers = multi.cpu_count()`; the `WORKERS`
environment override is consulted only when that count equals 1 (the
source's `workers is 1` is small-int identity, equivalent to `== 1` in
CPython); finally values below 1 are clamped to 1.  `env` models the
parsed `WORKERS` variable when present. -/
def resolveWorkers (cpuCount : Int) (env : Option Int) : Int :=
  let w := if cpuCount = 1 then env.getD cpuCount else cpuCount
  if w < 1 then 1 else w

/-- Lines 163-164: `for job in range(workers): process[count-job].wait()`.
`submitted` is the key set of the `process` dict; a missing key raises
`KeyError` (second component `false`), aborting after the waits already
performed. -/
def waitBatch (submitted : List Int) (c : Int) : List Nat → List Act × Bool
  | [] => ([], true)
  | j :: js =>
      if (c - (j : Int)) ∈ submitted then
        let r := waitBatch submitted c js
        (Act.wait (c - (j : Int)) :: r.1, r.2)
      else ([], false)

/-- Lines 155-164: the submission loop.  For each point: parse its jobId
(abort on failure), record the submission, and when `count % workers`
is 0 (the source's `is 0` is small-int identity, equivalent to `== 0`
in CPython; Python's `%` with a positive modulus agrees with `Int.emod`)
wait on the `workers` most recent jobIds.  Returns the accumulated
effect trace, the `process` dict keys in insertion order, and a success
flag. -/
def subPhase (W : Int) : List (List String) → List Int → List Act → List Act × List Int × Bool
  | [], submitted, tr => (tr, submitted, true)
  | p :: rest, submitted, tr =>
      match jobIdOf p with
      | none => (tr, submitted, false)
      | some c =>
          let submitted' := submitted ++ [c]
          let tr' := tr ++ [Act.submit c]
          if c % W = 0 then
            let wb := waitBatch submitted' c (List.range W.toNat)
            if wb.2 then subPhase W rest submitted' (tr' ++ wb.1)
            else (tr' ++ wb.1, submitted', false)
          else subPhase W rest submitted' tr'

/-- Lines 168-170: the completion poller for one job,
`while True: if not find_file(...) == '': break`, with `found t` the
artifact-existence answer at the `t`-th iteration.  Fuel-indexed: the
value is the first attempt index `< start + fuel` (at or after `start`)
at which the artifact is seen, `none` if the loop is still spinning after
`fuel` iterations. -/
def pollFirst (found : Nat → Bool) (start : Nat) : Nat → Option Nat
  | 0 => none
  | fuel + 1 => if found start then some start else pollFirst found (start + 1) fuel

/-- Line 172-174 (count extraction):
`int(viewshStats.splitlines()[1].split(' ')[1])` on the `r.stats -c`
report, given as its list of lines.  No category label is inspected: the
second line's second space-separated field is parsed as the count;
`none` models the `IndexError`/`ValueError` abort. -/
def extractCount (report : List String) : Option Int :=
  match report.get? 1 with
  | none => none
  | some line =>
      match (pySplitChar ' ' line).get? 1 with
      | none => none
      | some w => pyInt w

/-- Outcome of the aggregation loop (lines 166-174). -/
inductive AggRes where
  | ok (tr : List Act) (res : List (String × String × Int))
  | fatalA (tr : List Act)
  | hangA (tr : List Act)
deriving DecidableEq, Repr

/-- Lines 166-174: `for viewsh in range(len(pointList))`: poll for the
artifact named from the list index (`tempViewsh{i+1}`), read its stats,
and append `(point[0], point[1], count)` for the `i`-th point.  The items
are `pointList.enum`.  Failure of the coordinate accesses or of the count
extraction aborts fatally; exhausted poll fuel models the hang of the
unbounded busy-wait. -/
def aggLoop (statsFor : Nat → List String) (found : Nat → Nat → Bool) (fuel : Nat) :
    List (Nat × List String) → List Act → List (String × String × Int) → AggRes
  | [], tr, acc => .ok tr acc
  | (i, p) :: rest, tr, acc =>
      match pollFirst (found (i + 1)) 0 fuel with
      | none => .hangA tr
      | some _ =>
          let tr' := tr ++ [Act.stats (i + 1)]
          match p.get? 0, p.get? 1 with
          | some x, some y =>
              match extractCount (statsFor (i + 1)) with
              | some k => aggLoop statsFor found fuel rest tr' (acc ++ [(x, y, k)])
              | none => .fatalA tr'
          | _, _ => .fatalA tr'

/-- The pure value computed by the aggregation loop when every poll
succeeds: for each `(i, p)` item, the tuple of `p`'s first two fields and
the count extracted from job `i+1`'s report; `none` when some coordinate
access or count extraction fails.  (`aggLoop` is this computation plus
the effect trace and the poll; see `aggLoop_ok_char`.) -/
def aggPure (statsFor : Nat → List String) : List (Nat × List String) → Option (List (String × String × Int))
  | [] => some []
  | (i, p) :: rest =>
      match p.get? 0, p.get? 1, extractCount (statsFor (i + 1)) with
      | some x, some y, some k => (aggPure statsFor rest).map (fun r => (x, y, k) :: r)
      | _, _, _ => none

/-- Overall outcome of one run of `main`: success with the effect trace
and the `totViewshData` tuples passed to rasterization, a fatal abort
(uncaught Python exception), or an indefinite hang inside the poller. -/
inductive Outcome where
  | success (tr : List Act) (res : List (String × String × Int))
  | fatal (tr : List Act)
  | hang (tr : List Act)
deriving DecidableEq, Repr

/-- The whole of `main` (lines 107-195): parse points, resolve the worker
count, run the submission loop, run the aggregation loop, then rasterize
and clean up.  The temporary-vector writes (lines 177-185) perform no
modelled effect; `rasterize` and the two `remove` actions occur only on
the path that completes aggregation. -/
def mainRun (cpuCount : Int) (env : Option Int) (lines : List String)
    (found : Nat → Nat → Bool) (statsFor : Nat → List String) (fuel : Nat) : Outcome :=
  let pl := pointListOf lines
  let W := resolveWorkers cpuCount env
  match subPhase W pl [] [] with
  | (tr, _, false) => .fatal tr
  | (tr, _, true) =>
      match aggLoop statsFor found fuel pl.enum tr [] with
      | .hangA tr' => .hang tr'
      | .fatalA tr' => .fatal tr'
      | .ok tr' res => .success (tr' ++ [.rasterize, .removeRasters, .removeVector]) res

/-- Process exit code of `sys.exit(main())`: `main` returns `None` on
success (exit 0); an uncaught exception exits with code 1; a hang never
exits. -/
def exitCode : Outcome → Option Nat
  | .success _ _ => some 0
  | .fatal _ => some 1
  | .hang _ => none

/-- How one effect changes the collection of Running job processes: a
submission starts a process, a wait retires one, other effects do not
touch processes. -/
def runStep (s : List Int) (a : Act) : List Int :=
  match a with
  | .submit c => s ++ [c]
  | .wait c => s.erase c
  | _ => s

/-- The multiset of Running job processes (started by `start_command`,
not yet `wait()`ed) after a trace of effects. -/
def runningSet (tr : List Act) : List Int :=
  tr.foldl runStep []

/-- Whether an effect is a `stats` (summarization) action. -/
def isStats : Act → Bool
  | .stats _ => true
  | _ => false

/-- The submission-phase effect trace for dense jobIds `1..N` and worker
count `w`, written in batched form: `N / w` full blocks (submissions of
`b*w+1 .. b*w+w` in ascending order followed by their waits in descending
order) and then the submissions of the final partial batch, which is
never waited on inside the loop. -/
def batchedTrace (w N : Nat) : List Act :=
  (List.range (N / w)).flatMap (fun b =>
    (List.range' (b * w + 1) w).map (fun (c : Nat) => Act.submit (c : Int))
      ++ (List.range w).map (fun (j : Nat) => Act.wait ((b * w + w - j : Nat) : Int)))
  ++ (List.range' ((N / w) * w + 1) (N % w)).map (fun (c : Nat) => Act.submit (c : Int))

/-! ## Helper lemmas -/

theorem resolveWorkers_pos (cpuCount : Int) (env : Option Int) :
    1 ≤ resolveWorkers cpuCount env := by
  unfold resolveWorkers
  set w := if cpuCount = 1 then env.getD cpuCount else cpuCount with hw
  by_cases h : w < 1
  · simp [h]
  · simp [h]; omega

theorem pollFirst_none (found : Nat → Bool) (h : ∀ t, found t = false) :
    ∀ (fuel start : Nat), pollFirst found start fuel = none := by
  intro fuel
  induction fuel with
  | zero => intro s; rfl
  | succ f ih => intro s; simp [pollFirst, h s, ih]

theorem pollFirst_some (found : Nat → Bool) :
    ∀ (fuel start t : Nat), pollFirst found start fuel = some t → found t = true := by
  intro fuel
  induction fuel with
  | zero => intro s t h; simp [pollFirst] at h
  | succ f ih =>
      intro s t h
      by_cases hs : found s
      · simp [pollFirst, hs] at h; subst h; exact hs
      · simp [pollFirst, hs] at h; exact ih (s+1) t h

theorem pollFirst_of_found (found : Nat → Bool) (t : Nat) (ht : found t = true) :
    ∀ (fuel start : Nat), start ≤ t → t < start + fuel → (pollFirst found start fuel).isSome := by
  intro fuel
  induction fuel with
  | zero => intro s h1 h2; omega
  | succ f ih =>
      intro s h1 h2
      by_cases hs : found s
      · simp [pollFirst, hs]
      · have hst : s ≠ t := fun h => by subst h; rw [ht] at hs; exact hs rfl
        simp only [pollFirst, hs, if_neg]
        exact ih (s+1) (by omega) (by omega)

theorem subPhase_append (W : Int) (xs ys : List (List String)) :
    ∀ (s : List Int) (tr : List Act),
      subPhase W (xs ++ ys) s tr =
        (match subPhase W xs s tr with
         | (tr', s', true) => subPhase W ys s' tr'
         | (tr', s', false) => (tr', s', false)) := by
  induction xs with
  | nil => intro s tr; simp [subPhase]
  | cons p xs ih =>
      intro s tr
      cases hj : jobIdOf p with
      | none => simp [subPhase, hj]
      | some c =>
          by_cases hc : c % W = 0
          · cases hwb : (waitBatch (s ++ [c]) c (List.range W.toNat)).2
            · simp [subPhase, hj, hc, hwb]
            · simp [subPhase, hj, hc, hwb, ih]
          · simp [subPhase, hj, hc, ih]

theorem waitBatch_all (submitted : List Int) (c : Int) :
    ∀ (js : List Nat), (∀ j ∈ js, (c - (j : Int)) ∈ submitted) →
      waitBatch submitted c js = (js.map (fun (j : Nat) => Act.wait (c - (j : Int))), true) := by
  intro js
  induction js with
  | nil => intro _; rfl
  | cons j js ih =>
      intro h
      have hj := h j (by simp)
      simp [waitBatch, hj, ih (fun a ha => h a (by simp [ha]))]

theorem range'_concat_of_pos (a w : Nat) (hw : 1 ≤ w) :
    List.range' a w = List.range' a (w - 1) ++ [a + (w - 1)] := by
  obtain ⟨k, rfl⟩ : ∃ k, w = k + 1 := ⟨w - 1, by omega⟩
  rw [List.range'_concat]
  simp

theorem succ_div_mod_of_ne (w N : Nat) (hw : 1 ≤ w) (h : (N + 1) % w ≠ 0) :
    (N + 1) % w = N % w + 1 ∧ (N + 1) / w = N / w := by
  have hd : w * (N / w) + N % w = N := Nat.div_add_mod N w
  have hm : N % w < w := Nat.mod_lt N (by omega)
  have hlt : N % w + 1 < w := by
    rcases Nat.lt_or_ge (N % w + 1) w with hc | hc
    · exact hc
    · exfalso
      have he : N % w + 1 = w := by omega
      have h2 : N + 1 = w * (N / w + 1) := by
        rw [Nat.mul_add, Nat.mul_one]; omega
      rw [h2, Nat.mul_mod_right] at h
      exact h rfl
  have heq : N + 1 = w * (N / w) + (N % w + 1) := by omega
  constructor
  · rw [heq, Nat.mul_add_mod, Nat.mod_eq_of_lt hlt]
  · rw [heq, Nat.mul_add_div (by omega), Nat.div_eq_of_lt hlt, Nat.add_zero]

theorem succ_div_mod_of_eq (w N : Nat) (hw : 1 ≤ w) (h : (N + 1) % w = 0) :
    N % w = w - 1 ∧ (N + 1) / w = N / w + 1 ∧ N + 1 = (N / w) * w + w := by
  have hd : w * (N / w) + N % w = N := Nat.div_add_mod N w
  have hm : N % w < w := Nat.mod_lt N (by omega)
  have hr : N % w = w - 1 := by
    rcases Nat.lt_or_ge (N % w + 1) w with hc | hc
    · exfalso
      have heq : N + 1 = w * (N / w) + (N % w + 1) := by omega
      rw [heq, Nat.mul_add_mod, Nat.mod_eq_of_lt hc] at h
      omega
    · omega
  have heq : N + 1 = w * (N / w + 1) := by
    rw [Nat.mul_add, Nat.mul_one]; omega
  have hcm : w * (N / w) = (N / w) * w := Nat.mul_comm _ _
  refine ⟨hr, ?_, by omega⟩
  rw [heq, Nat.mul_div_cancel_left _ (show 0 < w by omega)]

theorem batchedTrace_zero (w : Nat) : batchedTrace w 0 = [] := by
  simp [batchedTrace]

theorem batchedTrace_step (w N : Nat) (hw : 1 ≤ w) :
    batchedTrace w (N + 1) =
      batchedTrace w N ++ (Act.submit ((N + 1 : Nat) : Int) ::
        (if (N + 1) % w = 0 then
          (List.range w).map (fun (j : Nat) => Act.wait (((N + 1 - j : Nat) : Int)))
         else [])) := by
  by_cases h : (N + 1) % w = 0
  · obtain ⟨hr, hq, hN⟩ := succ_div_mod_of_eq w N hw h
    rw [if_pos h]
    unfold batchedTrace
    rw [hq, h, hr, List.range_succ, List.flatMap_append]
    simp only [List.flatMap_cons, List.flatMap_nil, List.append_nil, List.range'_zero,
      List.map_nil]
    have hsub : (List.range' (N / w * w + 1) w).map (fun (c : Nat) => Act.submit (c : Int)) =
        (List.range' (N / w * w + 1) (w - 1)).map (fun (c : Nat) => Act.submit (c : Int))
          ++ [Act.submit ((N + 1 : Nat) : Int)] := by
      rw [range'_concat_of_pos _ w hw]
      simp only [List.map_append, List.map_cons, List.map_nil]
      have he : N / w * w + 1 + (w - 1) = N + 1 := by omega
      rw [he]
    have hwait : (List.range w).map (fun (j : Nat) => Act.wait ((N / w * w + w - j : Nat) : Int)) =
        (List.range w).map (fun (j : Nat) => Act.wait ((N + 1 - j : Nat) : Int)) := by
      apply List.map_congr_left
      intro j hj
      have he : N / w * w + w - j = N + 1 - j := by omega
      rw [he]
    rw [hsub, hwait]
    simp [List.append_assoc]
  · obtain ⟨hr, hq⟩ := succ_div_mod_of_ne w N hw h
    rw [if_neg h]
    unfold batchedTrace
    rw [hq, hr, List.range'_concat]
    simp only [List.map_append, List.map_cons, List.map_nil, Nat.mul_one]
    have he : N / w * w + 1 + 1 * (N % w) = N + 1 := by
      have hd : w * (N / w) + N % w = N := Nat.div_add_mod N w
      have hcm : w * (N / w) = (N / w) * w := Nat.mul_comm _ _
      omega
    rw [he]
    simp [List.append_assoc]

theorem runningSet_append (tr δ : List Act) :
    runningSet (tr ++ δ) = δ.foldl runStep (runningSet tr) := by
  unfold runningSet
  exact List.foldl_append _ _ _ _

theorem foldl_erase_length_le (v : Nat → Int) :
    ∀ (js : List Nat) (s : List Int),
      (js.foldl (fun (s : List Int) (j : Nat) => s.erase (v j)) s).length ≤ s.length := by
  intro js
  induction js with
  | nil => intro s; simp
  | cons j js ih =>
      intro s
      calc (List.foldl (fun (s : List Int) (j : Nat) => s.erase (v j)) (s.erase (v j)) js).length
          ≤ (s.erase (v j)).length := ih _
        _ ≤ s.length := by rw [List.length_erase]; split <;> omega

theorem foldl_runStep_wait_map (v : Nat → Int) (js : List Nat) (s : List Int) :
    (js.map (fun j => Act.wait (v j))).foldl runStep s =
      js.foldl (fun (s : List Int) (j : Nat) => s.erase (v j)) s := by
  rw [List.foldl_map]
  rfl

theorem erase_full_batch (a : Nat) :
    ∀ (k : Nat),
      (List.range k).foldl (fun (s : List Int) (j : Nat) => s.erase ((a + k - 1 - j : Nat) : Int))
        ((List.range' a k).map (fun (c : Nat) => (c : Int))) = [] := by
  intro k
  induction k with
  | zero => simp
  | succ k ih =>
      rw [List.range_succ_eq_map, List.range'_concat]
      simp only [List.foldl_cons, List.map_append, List.map_cons, List.map_nil, Nat.one_mul]
      have h0 : a + (k + 1) - 1 - 0 = a + k := by omega
      rw [h0]
      have hnm : ((a + k : Nat) : Int) ∉ (List.range' a k).map (fun (c : Nat) => (c : Int)) := by
        intro hmem
        obtain ⟨m, hm, hme⟩ := List.mem_map.mp hmem
        have : m = a + k := by exact_mod_cast hme
        subst this
        obtain ⟨i, hi, he⟩ := List.mem_range'.mp hm
        omega
      rw [List.erase_append, if_neg hnm]
      simp only [List.erase_cons_head, List.append_nil]
      rw [List.foldl_map]
      have hfe : ∀ (s : List Int), ∀ j ∈ List.range k,
          s.erase ((a + (k + 1) - 1 - Nat.succ j : Nat) : Int)
            = s.erase ((a + k - 1 - j : Nat) : Int) := by
        intro s j hj
        have he : a + (k + 1) - 1 - Nat.succ j = a + k - 1 - j := by omega
        rw [he]
      rw [List.foldl_ext _ _ _ hfe]
      exact ih

theorem runningSet_batched (w : Nat) (hw : 1 ≤ w) :
    ∀ N, runningSet (batchedTrace w N) =
      (List.range' ((N / w) * w + 1) (N % w)).map (fun (c : Nat) => (c : Int)) := by
  intro N
  induction N with
  | zero =>
      rw [batchedTrace_zero]
      simp [runningSet]
  | succ N ih =>
      rw [batchedTrace_step w N hw, runningSet_append]
      by_cases h : (N + 1) % w = 0
      · obtain ⟨hr, hq, hN⟩ := succ_div_mod_of_eq w N hw h
        rw [if_pos h]
        simp only [List.foldl_cons]
        have h1 : runStep (runningSet (batchedTrace w N)) (Act.submit ((N + 1 : Nat) : Int)) =
            (List.range' (N / w * w + 1) w).map (fun (c : Nat) => (c : Int)) := by
          show runningSet (batchedTrace w N) ++ [((N + 1 : Nat) : Int)] = _
          rw [ih, hr, range'_concat_of_pos _ w hw]
          simp only [List.map_append, List.map_cons, List.map_nil]
          have he : N / w * w + 1 + (w - 1) = N + 1 := by omega
          rw [he]
        rw [h1, foldl_runStep_wait_map]
        have hfe : ∀ (s : List Int), ∀ j ∈ List.range w,
            s.erase ((N + 1 - j : Nat) : Int)
              = s.erase (((N / w * w + 1) + w - 1 - j : Nat) : Int) := by
          intro s j hj
          have he : N + 1 - j = N / w * w + 1 + w - 1 - j := by omega
          rw [he]
        rw [List.foldl_ext _ _ _ hfe]
        rw [erase_full_batch (N / w * w + 1) w]
        rw [hq, h]
        simp
      · obtain ⟨hr, hq⟩ := succ_div_mod_of_ne w N hw h
        rw [if_neg h]
        simp only [List.foldl_cons, List.foldl_nil]
        show runningSet (batchedTrace w N) ++ [((N + 1 : Nat) : Int)] = _
        rw [ih, hq, hr, List.range'_concat]
        simp only [List.map_append, List.map_cons, List.map_nil, Nat.mul_one]
        have hd : w * (N / w) + N % w = N := Nat.div_add_mod N w
        have hcm : w * (N / w) = (N / w) * w := Nat.mul_comm _ _
        have he : N / w * w + 1 + 1 * (N % w) = N + 1 := by omega
        rw [he]

theorem batched_take_bound (w : Nat) (hw : 1 ≤ w) :
    ∀ (N n : Nat), (runningSet ((batchedTrace w N).take n)).length ≤ w := by
  intro N
  induction N with
  | zero =>
      intro n
      rw [batchedTrace_zero]
      simp [runningSet]
  | succ N ih =>
      intro n
      rw [batchedTrace_step w N hw, List.take_append_eq_append_take]
      by_cases hn : n ≤ (batchedTrace w N).length
      · have h0 : n - (batchedTrace w N).length = 0 := by omega
        rw [h0, List.take_zero, List.append_nil]
        exact ih n
      · have hfull : (batchedTrace w N).take n = batchedTrace w N :=
          List.take_of_length_le (by omega)
        rw [hfull, runningSet_append]
        have hlen : (runningSet (batchedTrace w N)).length = N % w := by
          rw [runningSet_batched w hw N, List.length_map, List.length_range']
        have hmlt : N % w < w := Nat.mod_lt N (by omega)
        cases hm : n - (batchedTrace w N).length with
        | zero => omega
        | succ m =>
            rw [List.take_cons (Nat.succ_pos m)]
            simp only [List.foldl_cons]
            have hstep : runStep (runningSet (batchedTrace w N)) (Act.submit ((N + 1 : Nat) : Int)) =
                runningSet (batchedTrace w N) ++ [((N + 1 : Nat) : Int)] := rfl
            rw [hstep]
            by_cases h : (N + 1) % w = 0
            · rw [if_pos h]
              rw [← List.map_take, foldl_runStep_wait_map]
              calc (((List.range w).take m).foldl
                      (fun (s : List Int) (j : Nat) => s.erase ((N + 1 - j : Nat) : Int))
                      (runningSet (batchedTrace w N) ++ [((N + 1 : Nat) : Int)])).length
                  ≤ (runningSet (batchedTrace w N) ++ [((N + 1 : Nat) : Int)]).length :=
                    foldl_erase_length_le _ _ _
                _ ≤ w := by
                    rw [List.length_append, hlen]
                    simp
                    omega
            · rw [if_neg h]
              simp only [List.take_nil, List.foldl_nil]
              rw [List.length_append, hlen]
              simp
              omega

theorem mem_range'_one {m k : Nat} : m ∈ List.range' 1 k ↔ 1 ≤ m ∧ m ≤ k := by
  rw [List.mem_range']
  constructor
  · rintro ⟨i, hi, rfl⟩; omega
  · intro ⟨h1, h2⟩; exact ⟨m - 1, by omega, by omega⟩

theorem map_eq_append_singleton {α β : Type _} (f : α → β) :
    ∀ (l : List α) (A : List β) (b : β), l.map f = A ++ [b] →
      ∃ l₁ x, l = l₁ ++ [x] ∧ l₁.map f = A ∧ f x = b := by
  intro l
  induction l with
  | nil =>
      intro A b h
      simp at h
  | cons a l ih =>
      intro A b h
      cases A with
      | nil =>
          simp only [List.map_cons, List.nil_append] at h
          obtain ⟨h1, h2⟩ := List.cons_eq_cons.mp h
          have hl : l = [] := List.map_eq_nil_iff.mp h2
          exact ⟨[], a, by simp [hl], by simp, h1⟩
      | cons a' A' =>
          simp only [List.map_cons, List.cons_append] at h
          obtain ⟨h1, h2⟩ := List.cons_eq_cons.mp h
          obtain ⟨l₁, x, rfl, hm, hb⟩ := ih A' b h2
          exact ⟨a :: l₁, x, rfl, by simp [h1, hm], hb⟩

theorem subPhase_dense (w : Nat) (hw : 1 ≤ w) :
    ∀ (N : Nat) (pl : List (List String)),
      pl.map jobIdOf = (List.range' 1 N).map (fun (c : Nat) => some (c : Int)) →
      subPhase ((w : Nat) : Int) pl [] [] =
        (batchedTrace w N, (List.range' 1 N).map (fun (c : Nat) => (c : Int)), true) := by
  intro N
  induction N with
  | zero =>
      intro pl h
      simp only [List.range'_zero, List.map_nil] at h
      have hpl : pl = [] := List.map_eq_nil_iff.mp h
      subst hpl
      rw [batchedTrace_zero]
      simp [subPhase]
  | succ N ih =>
      intro pl h
      rw [List.range'_concat, List.map_append] at h
      simp only [Nat.one_mul, List.map_cons, List.map_nil] at h
      have h1N : 1 + N = N + 1 := by omega
      rw [h1N] at h
      obtain ⟨pl₁, p, rfl, hm, hp⟩ := map_eq_append_singleton jobIdOf pl _ _ h
      have h₁ := ih pl₁ hm
      rw [subPhase_append, h₁]
      show subPhase ((w : Nat) : Int) [p]
        ((List.range' 1 N).map (fun (c : Nat) => (c : Int))) (batchedTrace w N) = _
      have hsub1 : ((List.range' 1 N).map (fun (c : Nat) => (c : Int))) ++ [((N + 1 : Nat) : Int)]
          = (List.range' 1 (N + 1)).map (fun (c : Nat) => (c : Int)) := by
        rw [List.range'_concat]
        simp only [List.map_append, List.map_cons, List.map_nil, Nat.one_mul, h1N]
      by_cases hc : (N + 1) % w = 0
      · have hcI : ((N + 1 : Nat) : Int) % ((w : Nat) : Int) = 0 := by
          rw [← Int.ofNat_emod, hc]
          rfl
        have hwt : ((w : Nat) : Int).toNat = w := Int.toNat_natCast w
        have hWle : w ≤ N + 1 := Nat.le_of_dvd (by omega) (Nat.dvd_of_mod_eq_zero hc)
        have hall : ∀ j ∈ List.range w,
            ((N + 1 : Nat) : Int) - ((j : Nat) : Int) ∈
              ((List.range' 1 N).map (fun (c : Nat) => (c : Int))) ++ [((N + 1 : Nat) : Int)] := by
          intro j hj
          have hjw : j < w := List.mem_range.mp hj
          have hcast : ((N + 1 : Nat) : Int) - ((j : Nat) : Int) = ((N + 1 - j : Nat) : Int) := by
            have hjle : j ≤ N + 1 := by omega
            omega
          rw [hcast]
          by_cases hj0 : j = 0
          · subst hj0
            simp
          · apply List.mem_append_left
            apply List.mem_map.mpr
            refine ⟨N + 1 - j, ?_, rfl⟩
            rw [mem_range'_one]
            omega
        simp only [subPhase, hp, hcI, if_pos, hwt]
        rw [waitBatch_all _ _ _ hall]
        dsimp only
        rw [if_pos rfl]
        rw [hsub1]
        have htr : batchedTrace w N ++ [Act.submit ((N + 1 : Nat) : Int)]
              ++ (List.range w).map
                  (fun (j : Nat) => Act.wait (((N + 1 : Nat) : Int) - ((j : Nat) : Int)))
            = batchedTrace w (N + 1) := by
          rw [batchedTrace_step w N hw, if_pos hc]
          have hwm : (List.range w).map
              (fun (j : Nat) => Act.wait (((N + 1 : Nat) : Int) - ((j : Nat) : Int))) =
              (List.range w).map (fun (j : Nat) => Act.wait ((N + 1 - j : Nat) : Int)) := by
            apply List.map_congr_left
            intro j hj
            have hjw : j < w := List.mem_range.mp hj
            have hcast : ((N + 1 : Nat) : Int) - ((j : Nat) : Int) = ((N + 1 - j : Nat) : Int) := by
              omega
            rw [hcast]
          rw [hwm]
          simp [List.append_assoc]
        rw [htr]
      · have hcI : ¬ ((N + 1 : Nat) : Int) % ((w : Nat) : Int) = 0 := by
          rw [← Int.ofNat_emod]
          intro hco
          exact hc (by exact_mod_cast hco)
        simp only [subPhase, hp, hcI, if_neg, ite_false]
        rw [hsub1]
        have htr : batchedTrace w N ++ [Act.submit ((N + 1 : Nat) : Int)]
            = batchedTrace w (N + 1) := by
          rw [batchedTrace_step w N hw, if_neg hc]
        rw [htr]

theorem aggLoop_ok_char (statsFor : Nat → List String) (found : Nat → Nat → Bool) (fuel : Nat) :
    ∀ (L : List (Nat × List String)) (tr : List Act) (acc : List (String × String × Int))
      (tr' : List Act) (res : List (String × String × Int)),
      aggLoop statsFor found fuel L tr acc = .ok tr' res →
      ∃ r, aggPure statsFor L = some r ∧
        tr' = tr ++ L.map (fun ip => Act.stats (ip.1 + 1)) ∧ res = acc ++ r := by
  intro L
  induction L with
  | nil =>
      intro tr acc tr' res h
      simp only [aggLoop] at h
      obtain ⟨h1, h2⟩ := AggRes.ok.inj h
      exact ⟨[], rfl, by simp [h1.symm], by simp [h2.symm]⟩
  | cons ip L ih =>
      intro tr acc tr' res h
      obtain ⟨i, p⟩ := ip
      simp only [aggLoop] at h
      cases hpoll : pollFirst (found (i + 1)) 0 fuel with
      | none => rw [hpoll] at h; exact absurd h (by simp)
      | some t =>
          rw [hpoll] at h
          cases hx : p.get? 0 with
          | none => rw [hx] at h; exact absurd h (by simp)
          | some x =>
              cases hy : p.get? 1 with
              | none => rw [hx, hy] at h; exact absurd h (by simp)
              | some y =>
                  cases hk : extractCount (statsFor (i + 1)) with
                  | none => rw [hx, hy, hk] at h; exact absurd h (by simp)
                  | some k =>
                      rw [hx, hy, hk] at h
                      obtain ⟨r, hr, htr, hres⟩ := ih _ _ _ _ h
                      refine ⟨(x, y, k) :: r, ?_, ?_, ?_⟩
                      · simp [aggPure, ← List.get?_eq_getElem?, hx, hy, hk, hr]
                      · rw [htr]; simp
                      · rw [hres]; simp

theorem aggPure_length (statsFor : Nat → List String) :
    ∀ (L : List (Nat × List String)) (r : List (String × String × Int)),
      aggPure statsFor L = some r → r.length = L.length := by
  intro L
  induction L with
  | nil => intro r h; simp only [aggPure, Option.some.injEq] at h; simp [← h]
  | cons ip L ih =>
      intro r h
      obtain ⟨i, p⟩ := ip
      simp only [aggPure] at h
      cases hx : p.get? 0 with
      | none => rw [hx] at h; simp at h
      | some x =>
          cases hy : p.get? 1 with
          | none => rw [hx, hy] at h; simp at h
          | some y =>
              cases hk : extractCount (statsFor (i + 1)) with
              | none => rw [hx, hy, hk] at h; simp at h
              | some k =>
                  rw [hx, hy, hk] at h
                  cases hr : aggPure statsFor L with
                  | none => rw [hr] at h; simp at h
                  | some r' =>
                      rw [hr] at h
                      simp only [Option.map_some', Option.some.injEq] at h
                      subst h
                      simp [ih r' hr]

theorem aggPure_get (statsFor : Nat → List String) :
    ∀ (L : List (Nat × List String)) (r : List (String × String × Int)),
      aggPure statsFor L = some r →
      ∀ (m : Nat) (hm : m < L.length), ∃ x y k,
        (L.get ⟨m, hm⟩).2.get? 0 = some x ∧ (L.get ⟨m, hm⟩).2.get? 1 = some y ∧
        extractCount (statsFor ((L.get ⟨m, hm⟩).1 + 1)) = some k ∧
        r.get? m = some (x, y, k) := by
  intro L
  induction L with
  | nil => intro r h m hm; simp at hm
  | cons ip L ih =>
      intro r h m hm
      obtain ⟨i, p⟩ := ip
      simp only [aggPure] at h
      cases hx : p.get? 0 with
      | none => rw [hx] at h; simp at h
      | some x =>
          cases hy : p.get? 1 with
          | none => rw [hx, hy] at h; simp at h
          | some y =>
              cases hk : extractCount (statsFor (i + 1)) with
              | none => rw [hx, hy, hk] at h; simp at h
              | some k =>
                  rw [hx, hy, hk] at h
                  cases hr : aggPure statsFor L with
                  | none => rw [hr] at h; simp at h
                  | some r' =>
                      rw [hr] at h
                      simp only [Option.map_some', Option.some.injEq] at h
                      subst h
                      cases m with
                      | zero => exact ⟨x, y, k, hx, hy, hk, rfl⟩
                      | succ m =>
                          have hm' : m < L.length := by simpa using hm
                          obtain ⟨x', y', k', h1, h2, h3, h4⟩ := ih r' hr m hm'
                          exact ⟨x', y', k', h1, h2, h3, h4⟩

theorem aggLoop_fatal_acts (statsFor : Nat → List String) (found : Nat → Nat → Bool) (fuel : Nat) :
    ∀ (L : List (Nat × List String)) (tr : List Act) (acc : List (String × String × Int))
      (tr' : List Act),
      aggLoop statsFor found fuel L tr acc = .fatalA tr' →
      ∀ a ∈ tr', a ∈ tr ∨ ∃ j, a = Act.stats j := by
  intro L
  induction L with
  | nil => intro tr acc tr' h; simp [aggLoop] at h
  | cons ip L ih =>
      intro tr acc tr' h
      obtain ⟨i, p⟩ := ip
      simp only [aggLoop] at h
      cases hpoll : pollFirst (found (i + 1)) 0 fuel with
      | none => rw [hpoll] at h; simp at h
      | some t =>
          rw [hpoll] at h
          cases hx : p.get? 0 with
          | none =>
              rw [hx] at h
              simp only [AggRes.fatalA.injEq] at h
              subst h
              intro a ha
              rcases List.mem_append.mp ha with h1 | h1
              · exact Or.inl h1
              · simp at h1; exact Or.inr ⟨i + 1, h1⟩
          | some x =>
              cases hy : p.get? 1 with
              | none =>
                  rw [hx, hy] at h
                  simp only [AggRes.fatalA.injEq] at h
                  subst h
                  intro a ha
                  rcases List.mem_append.mp ha with h1 | h1
                  · exact Or.inl h1
                  · simp at h1; exact Or.inr ⟨i + 1, h1⟩
              | some y =>
                  cases hk : extractCount (statsFor (i + 1)) with
                  | none =>
                      rw [hx, hy, hk] at h
                      simp only [AggRes.fatalA.injEq] at h
                      subst h
                      intro a ha
                      rcases List.mem_append.mp ha with h1 | h1
                      · exact Or.inl h1
                      · simp at h1; exact Or.inr ⟨i + 1, h1⟩
                  | some k =>
                      rw [hx, hy, hk] at h
                      intro a ha
                      rcases ih _ _ _ h a ha with h1 | h1
                      · rcases List.mem_append.mp h1 with h2 | h2
                        · exact Or.inl h2
                        · simp at h2; exact Or.inr ⟨i + 1, h2⟩
                      · exact Or.inr h1

theorem waitBatch_acts (submitted : List Int) (c : Int) :
    ∀ (js : List Nat), ∀ a ∈ (waitBatch submitted c js).1, ∃ d, a = Act.wait d := by
  intro js
  induction js with
  | nil => intro a ha; simp [waitBatch] at ha
  | cons j js ih =>
      intro a ha
      by_cases hm : (c - (j : Int)) ∈ submitted
      · rw [waitBatch, if_pos hm] at ha
        simp only [List.mem_cons] at ha
        rcases ha with h1 | h1
        · exact ⟨c - (j : Int), h1⟩
        · exact ih a h1
      · rw [waitBatch, if_neg hm] at ha
        simp at ha

theorem subPhase_acts (W : Int) :
    ∀ (pl : List (List String)) (s : List Int) (tr : List Act),
      ∀ a ∈ (subPhase W pl s tr).1, a ∈ tr ∨ (∃ c, a = Act.submit c) ∨ (∃ c, a = Act.wait c) := by
  intro pl
  induction pl with
  | nil => intro s tr a ha; exact Or.inl ha
  | cons p pl ih =>
      intro s tr a ha
      cases hj : jobIdOf p with
      | none =>
          rw [subPhase, hj] at ha
          exact Or.inl ha
      | some c =>
          rw [subPhase, hj] at ha
          simp only at ha
          by_cases hc : c % W = 0
          · rw [if_pos hc] at ha
            cases hwb : (waitBatch (s ++ [c]) c (List.range W.toNat)).2
            · rw [hwb] at ha
              simp only [Bool.false_eq_true, if_neg] at ha
              rcases List.mem_append.mp ha with h1 | h1
              · rcases List.mem_append.mp h1 with h2 | h2
                · exact Or.inl h2
                · simp at h2; exact Or.inr (Or.inl ⟨c, h2⟩)
              · have := waitBatch_acts (s ++ [c]) c (List.range W.toNat) a h1
                exact Or.inr (Or.inr this)
            · rw [hwb] at ha
              simp only [if_pos] at ha
              rcases ih _ _ a ha with h1 | h1
              · rcases List.mem_append.mp h1 with h2 | h2
                · rcases List.mem_append.mp h2 with h3 | h3
                  · exact Or.inl h3
                  · simp at h3; exact Or.inr (Or.inl ⟨c, h3⟩)
                · have := waitBatch_acts (s ++ [c]) c (List.range W.toNat) a h2
                  exact Or.inr (Or.inr this)
              · exact Or.inr h1
          · rw [if_neg hc] at ha
            rcases ih _ _ a ha with h1 | h1
            · rcases List.mem_append.mp h1 with h2 | h2
              · exact Or.inl h2
              · simp at h2; exact Or.inr (Or.inl ⟨c, h2⟩)
            · exact Or.inr h1

theorem mainRun_success_char (cpuCount : Int) (env : Option Int) (lines : List String)
    (found : Nat → Nat → Bool) (statsFor : Nat → List String) (fuel : Nat)
    (tr : List Act) (res : List (String × String × Int))
    (h : mainRun cpuCount env lines found statsFor fuel = .success tr res) :
    ∃ str ss r,
      subPhase (resolveWorkers cpuCount env) (pointListOf lines) [] [] = (str, ss, true) ∧
      aggPure statsFor (pointListOf lines).enum = some r ∧ res = r ∧
      tr = str ++ (pointListOf lines).enum.map (fun ip => Act.stats (ip.1 + 1))
            ++ [Act.rasterize, Act.removeRasters, Act.removeVector] := by
  simp only [mainRun] at h
  rcases hsp : subPhase (resolveWorkers cpuCount env) (pointListOf lines) [] [] with ⟨str, ss, ok⟩
  rw [hsp] at h
  cases ok with
  | false => simp at h
  | true =>
      simp only at h
      cases hagg : aggLoop statsFor found fuel (pointListOf lines).enum str [] with
      | hangA tr2 => rw [hagg] at h; simp at h
      | fatalA tr2 => rw [hagg] at h; simp at h
      | ok tr2 res2 =>
          rw [hagg] at h
          simp only [Outcome.success.injEq] at h
          obtain ⟨htr, hres⟩ := h
          obtain ⟨r, hr, htr2, hres2⟩ := aggLoop_ok_char statsFor found fuel _ _ _ _ _ hagg
          refine ⟨str, ss, r, rfl, hr, ?_, ?_⟩
          · rw [← hres, hres2]; simp
          · rw [← htr, htr2]

theorem mainRun_fatal_acts (cpuCount : Int) (env : Option Int) (lines : List String)
    (found : Nat → Nat → Bool) (statsFor : Nat → List String) (fuel : Nat) (tr : List Act)
    (h : mainRun cpuCount env lines found statsFor fuel = .fatal tr) :
    ∀ a ∈ tr, (∃ c, a = Act.submit c) ∨ (∃ c, a = Act.wait c) ∨ (∃ j, a = Act.stats j) := by
  simp only [mainRun] at h
  rcases hsp : subPhase (resolveWorkers cpuCount env) (pointListOf lines) [] [] with ⟨str, ss, ok⟩
  rw [hsp] at h
  cases ok with
  | false =>
      simp only [Outcome.fatal.injEq] at h
      subst h
      intro a ha
      rcases subPhase_acts _ _ _ _ a (by rw [hsp]; exact ha) with h1 | h1 | h1
      · simp at h1
      · exact Or.inl h1
      · exact Or.inr (Or.inl h1)
  | true =>
      simp only at h
      cases hagg : aggLoop statsFor found fuel (pointListOf lines).enum str [] with
      | hangA tr2 => rw [hagg] at h; simp at h
      | ok tr2 res2 => rw [hagg] at h; simp at h
      | fatalA tr2 =>
          rw [hagg] at h
          simp only [Outcome.fatal.injEq] at h
          subst h
          intro a ha
          rcases aggLoop_fatal_acts _ _ _ _ _ _ _ hagg a ha with h1 | h1
          · rcases subPhase_acts _ _ _ _ a (by rw [hsp]; exact h1) with h2 | h2 | h2
            · simp at h2
            · exact Or.inl h2
            · exact Or.inr (Or.inl h2)
          · exact Or.inr (Or.inr h1)

theorem mainRun_success_unique (cpuCount : Int) (env : Option Int) (lines : List String)
    (found found' : Nat → Nat → Bool) (statsFor : Nat → List String) (fuel fuel' : Nat)
    (tr tr' : List Act) (res res' : List (String × String × Int))
    (h : mainRun cpuCount env lines found statsFor fuel = .success tr res)
    (h' : mainRun cpuCount env lines found' statsFor fuel' = .success tr' res') :
    tr' = tr ∧ res' = res := by
  obtain ⟨str, ss, r, hsp, hr, hres, htr⟩ :=
    mainRun_success_char cpuCount env lines found statsFor fuel tr res h
  obtain ⟨str2, ss2, r2, hsp2, hr2, hres2, htr2⟩ :=
    mainRun_success_char cpuCount env lines found' statsFor fuel' tr' res' h'
  rw [hsp] at hsp2
  rw [hr] at hr2
  simp only [Prod.mk.injEq, Option.some.injEq] at hsp2 hr2
  obtain ⟨he1, he2, -⟩ := hsp2
  subst he1
  subst hr2
  rw [htr, htr2, hres, hres2]
  exact ⟨rfl, rfl⟩

theorem enum_stats_map (pl : List (List String)) :
    pl.enum.map (fun ip => Act.stats (ip.1 + 1)) =
      (List.range' 1 pl.length).map Act.stats := by
  have h1 : pl.enum.map (fun ip => Act.stats (ip.1 + 1)) =
      (List.range pl.length).map (fun i => Act.stats (i + 1)) := by
    rw [← List.enum_map_fst pl, List.map_map]
    rfl
  have h2 : List.range' 1 pl.length = (List.range pl.length).map (fun i => 1 + i) :=
    List.range'_eq_map_range 1 _
  rw [h1, h2, List.map_map]
  apply List.map_congr_left
  intro i hi
  show Act.stats (i + 1) = Act.stats (1 + i)
  rw [Nat.add_comm]

theorem mainRun_stats_filter (cpuCount : Int) (env : Option Int) (lines : List String)
    (found : Nat → Nat → Bool) (statsFor : Nat → List String) (fuel : Nat)
    (tr : List Act) (res : List (String × String × Int))
    (h : mainRun cpuCount env lines found statsFor fuel = .success tr res) :
    tr.filter isStats = (List.range' 1 (pointListOf lines).length).map Act.stats := by
  obtain ⟨str, ss, r, hsp, hr, hres, htr⟩ :=
    mainRun_success_char cpuCount env lines found statsFor fuel tr res h
  rw [htr]
  rw [List.filter_append, List.filter_append]
  have hstr : str.filter isStats = [] := by
    apply List.filter_eq_nil_iff.mpr
    intro a ha
    rcases subPhase_acts _ _ _ _ a (by rw [hsp]; exact ha) with h1 | h1 | h1
    · simp at h1
    · obtain ⟨c, rfl⟩ := h1; simp [isStats]
    · obtain ⟨c, rfl⟩ := h1; simp [isStats]
  have hmap : ((pointListOf lines).enum.map (fun ip => Act.stats (ip.1 + 1))).filter isStats
      = (pointListOf lines).enum.map (fun ip => Act.stats (ip.1 + 1)) := by
    apply List.filter_eq_self.mpr
    intro a ha
    obtain ⟨ip, hip, rfl⟩ := List.mem_map.mp ha
    simp [isStats]
  have htail : ([Act.rasterize, Act.removeRasters, Act.removeVector]).filter isStats = [] := rfl
  rw [hstr, hmap, htail, enum_stats_map]
  simp

/-- C1: for every run whose parsed jobIds are the dense sequence `1..N`
(the data-model invariant) and resolved worker count `W`, at every
instant during the submission loop — i.e. after every prefix of the
submission-phase effect trace — the number of concurrently Running
`r.viewshed` processes (started but not yet waited on) is at most `W`. -/
theorem claim_concurrency_ceiling (cpuCount : Int) (env : Option Int) (N : Nat)
    (pl : List (List String))
    (hdense : pl.map jobIdOf = (List.range' 1 N).map (fun (c : Nat) => some (c : Int)))
    (n : Nat) :
    ((runningSet (((subPhase (resolveWorkers cpuCount env) pl [] []).1).take n)).length : Int)
      ≤ resolveWorkers cpuCount env := by
  have hpos := resolveWorkers_pos cpuCount env
  set W := resolveWorkers cpuCount env with hW
  have hcast : ((W.toNat : Nat) : Int) = W := Int.toNat_of_nonneg (by omega)
  have hw1 : 1 ≤ W.toNat := by omega
  have hd := subPhase_dense W.toNat hw1 N pl hdense
  rw [hcast] at hd
  have h1 : (subPhase W pl [] []).1 = batchedTrace W.toNat N := by rw [hd]
  rw [h1]
  calc ((runningSet ((batchedTrace W.toNat N).take n)).length : Int)
      ≤ (W.toNat : Int) := by exact_mod_cast batched_take_bound W.toNat hw1 N n
    _ = W := hcast

theorem claim_concurrency_ceiling_witness :
    ((pointListOf ["1,2,1", "3,4,2", "5,6,3"]).map jobIdOf
        = (List.range' 1 3).map (fun (c : Nat) => some (c : Int)))
    ∧ ((runningSet (((subPhase (resolveWorkers 2 none)
          (pointListOf ["1,2,1", "3,4,2", "5,6,3"]) [] []).1).take 2)).length : Int)
        ≤ resolveWorkers 2 none :=
  ⟨by decide, claim_concurrency_ceiling 2 none 3 _ (by decide) 2⟩

/-- C3: for dense jobIds `1..N` the submission-phase trace is exactly the
batched trace: consecutive batches of size `W` in jobId order, each full
batch's submissions followed immediately by the `wait` calls on all of
that batch's processes before any submission of the next batch (the
final partial batch is submitted without an in-loop wait).  In
particular for 3 points and `W = 2`, jobs 1 and 2 are launched together
and job 3 is launched only after both have been waited on. -/
theorem claim_lockstep_batching (cpuCount : Int) (env : Option Int) (N : Nat)
    (pl : List (List String))
    (hdense : pl.map jobIdOf = (List.range' 1 N).map (fun (c : Nat) => some (c : Int))) :
    (subPhase (resolveWorkers cpuCount env) pl [] []).1
        = batchedTrace (resolveWorkers cpuCount env).toNat N
    ∧ (subPhase 2 (pointListOf ["1,2,1", "3,4,2", "5,6,3"]) [] []).1
        = [Act.submit 1, Act.submit 2, Act.wait 2, Act.wait 1, Act.submit 3] := by
  constructor
  · have hpos := resolveWorkers_pos cpuCount env
    set W := resolveWorkers cpuCount env with hW
    have hcast : ((W.toNat : Nat) : Int) = W := Int.toNat_of_nonneg (by omega)
    have hw1 : 1 ≤ W.toNat := by omega
    have hd := subPhase_dense W.toNat hw1 N pl hdense
    rw [hcast] at hd
    rw [hd]
  · decide

theorem claim_lockstep_batching_witness :
    ((pointListOf ["1,2,1", "3,4,2", "5,6,3"]).map jobIdOf
        = (List.range' 1 3).map (fun (c : Nat) => some (c : Int)))
    ∧ (subPhase (resolveWorkers 2 none) (pointListOf ["1,2,1", "3,4,2", "5,6,3"]) [] []).1
        = batchedTrace (resolveWorkers 2 none).toNat 3 :=
  ⟨by decide, (claim_lockstep_batching 2 none 3 _ (by decide)).1⟩

/-- C2: on a successful run the sequence passed to rasterization has
exactly one entry per input point; the summarization trace visits the
artifact jobIds `1..N` in strictly ascending order with no duplicates
and no gaps; and the trace and the result sequence are independent of
the artifact-appearance schedule (the wall-clock order in which the
worker processes complete), captured by quantifying over every other
oracle and fuel that also lead to success. -/
theorem claim_result_completeness_order (cpuCount : Int) (env : Option Int)
    (lines : List String) (found : Nat → Nat → Bool) (statsFor : Nat → List String)
    (fuel : Nat) (tr : List Act) (res : List (String × String × Int))
    (h : mainRun cpuCount env lines found statsFor fuel = Outcome.success tr res) :
    res.length = (pointListOf lines).length
    ∧ tr.filter isStats = (List.range' 1 (pointListOf lines).length).map Act.stats
    ∧ ∀ (found' : Nat → Nat → Bool) (fuel' : Nat) (tr' : List Act)
        (res' : List (String × String × Int)),
        mainRun cpuCount env lines found' statsFor fuel' = Outcome.success tr' res' →
        tr' = tr ∧ res' = res := by
  refine ⟨?_, mainRun_stats_filter cpuCount env lines found statsFor fuel tr res h,
    fun found' fuel' tr' res' h' =>
      mainRun_success_unique cpuCount env lines found found' statsFor fuel fuel'
        tr tr' res res' h h'⟩
  obtain ⟨str, ss, r, hsp, hr, hres, htr⟩ :=
    mainRun_success_char cpuCount env lines found statsFor fuel tr res h
  rw [hres, aggPure_length statsFor _ r hr]
  exact List.enum_length

theorem claim_result_completeness_order_witness :
    (mainRun 1 none ["1,2,1", "3,4,2"] (fun _ _ => true) (fun _ => ["0 5", "1 7"]) 1
      = Outcome.success [Act.submit 1, Act.wait 1, Act.submit 2, Act.wait 2, Act.stats 1,
          Act.stats 2, Act.rasterize, Act.removeRasters, Act.removeVector]
        [("1", "2", 7), ("3", "4", 7)])
    ∧ [("1", "2", (7 : Int)), ("3", "4", 7)].length = (pointListOf ["1,2,1", "3,4,2"]).length :=
  ⟨by decide,
    (claim_result_completeness_order 1 none ["1,2,1", "3,4,2"] (fun _ _ => true)
      (fun _ => ["0 5", "1 7"]) 1
      [Act.submit 1, Act.wait 1, Act.submit 2, Act.wait 2, Act.stats 1,
        Act.stats 2, Act.rasterize, Act.removeRasters, Act.removeVector]
      [("1", "2", 7), ("3", "4", 7)] (by decide)).1⟩

/-- C10: during aggregation the artifact that is polled and summarized
for the `i`-th input point (0-based) is the one named from the list
position, `tempViewsh{i+1}`, and its count is paired with the `i`-th
point's coordinate fields — the point's own parsed jobId field plays no
role there (it is used only at submission time).  The concrete conjunct
shows a run whose first line carries jobId 2 and second line jobId 1:
the first output tuple pairs line 0's coordinates `("1","2")` with the
count 101 extracted from artifact 1 — the artifact produced by the job
of the *other* line. -/
theorem claim_positional_identity (cpuCount : Int) (env : Option Int)
    (lines : List String) (found : Nat → Nat → Bool) (statsFor : Nat → List String)
    (fuel : Nat) (tr : List Act) (res : List (String × String × Int))
    (h : mainRun cpuCount env lines found statsFor fuel = Outcome.success tr res) :
    (∀ (i : Nat) (hi : i < (pointListOf lines).length), ∃ x y k,
        ((pointListOf lines).get ⟨i, hi⟩).get? 0 = some x ∧
        ((pointListOf lines).get ⟨i, hi⟩).get? 1 = some y ∧
        extractCount (statsFor (i + 1)) = some k ∧
        res.get? i = some (x, y, k))
    ∧ mainRun 1 none ["1,2,2", "3,4,1"] (fun _ _ => true)
        (fun j => ["0 5", "1 " ++ toString (100 + j)]) 1
      = Outcome.success [Act.submit 2, Act.wait 2, Act.submit 1, Act.wait 1, Act.stats 1,
          Act.stats 2, Act.rasterize, Act.removeRasters, Act.removeVector]
          [("1", "2", 101), ("3", "4", 102)] := by
  constructor
  · intro i hi
    obtain ⟨str, ss, r, hsp, hr, hres, htr⟩ :=
      mainRun_success_char cpuCount env lines found statsFor fuel tr res h
    have hlen : i < (pointListOf lines).enum.length := by rw [List.enum_length]; exact hi
    obtain ⟨x, y, k, h1, h2, h3, h4⟩ := aggPure_get statsFor _ r hr i hlen
    have hget : (pointListOf lines).enum.get ⟨i, hlen⟩
        = (i, (pointListOf lines).get ⟨i, hi⟩) := by
      simp [List.get_eq_getElem, List.getElem_enum]
    rw [hget] at h1 h2 h3
    exact ⟨x, y, k, h1, h2, h3, by rw [hres]; exact h4⟩
  · decide

theorem claim_positional_identity_witness :
    (mainRun 1 none ["1,2,2", "3,4,1"] (fun _ _ => true)
        (fun j => ["0 5", "1 " ++ toString (100 + j)]) 1
      = Outcome.success [Act.submit 2, Act.wait 2, Act.submit 1, Act.wait 1, Act.stats 1,
          Act.stats 2, Act.rasterize, Act.removeRasters, Act.removeVector]
          [("1", "2", 101), ("3", "4", 102)])
    ∧ (0 : Nat) < (pointListOf ["1,2,2", "3,4,1"]).length
    ∧ ∃ x y k,
        ((pointListOf ["1,2,2", "3,4,1"]).get ⟨0, by decide⟩).get? 0 = some x ∧
        ((pointListOf ["1,2,2", "3,4,1"]).get ⟨0, by decide⟩).get? 1 = some y ∧
        extractCount ((fun j => ["0 5", "1 " ++ toString (100 + j)]) (0 + 1)) = some k ∧
        ([("1", "2", (101 : Int)), ("3", "4", 102)] : List (String × String × Int)).get? 0
          = some (x, y, k) :=
  ⟨by decide, by decide,
    (claim_positional_identity 1 none ["1,2,2", "3,4,1"] (fun _ _ => true)
      (fun j => ["0 5", "1 " ++ toString (100 + j)]) 1
      [Act.submit 2, Act.wait 2, Act.submit 1, Act.wait 1, Act.stats 1,
        Act.stats 2, Act.rasterize, Act.removeRasters, Act.removeVector]
      [("1", "2", 101), ("3", "4", 102)] (by decide)).1 0 (by decide)⟩

/-- C4 counterexample: the claim says the explicit `WORKERS` override
takes effect for every host processing-unit count, but with 2 processing
units and `WORKERS=5` the resolved worker count is 2, not 5 — the code
consults `WORKERS` only when `cpu_count()` equals 1. -/
theorem claim_workers_override_cex :
    resolveWorkers 2 (some 5) = 2 ∧ (2 : Int) ≠ 5 := by decide

/-- C4 amended: the worker count defaults to the host processing-unit
count; the explicit `WORKERS` override takes effect only when that count
equals 1; and the resolved value is clamped to 1 whenever it is below 1
(in particular it is always at least 1). -/
theorem claim_workers_resolution_amended :
    (∀ cpuCount : Int, resolveWorkers cpuCount none
        = if cpuCount < 1 then 1 else cpuCount)
    ∧ (∀ v : Int, resolveWorkers 1 (some v) = if v < 1 then 1 else v)
    ∧ (∀ (cpuCount v : Int), cpuCount ≠ 1 →
        resolveWorkers cpuCount (some v) = if cpuCount < 1 then 1 else cpuCount)
    ∧ (∀ (cpuCount : Int) (env : Option Int), 1 ≤ resolveWorkers cpuCount env) := by
  refine ⟨?_, ?_, ?_, fun c e => resolveWorkers_pos c e⟩
  · intro c
    by_cases h : c = 1
    · subst h; simp [resolveWorkers]
    · simp [resolveWorkers, h]
  · intro v
    simp [resolveWorkers]
  · intro c v h
    simp [resolveWorkers, h]

theorem claim_workers_resolution_amended_witness :
    (2 : Int) ≠ 1 ∧ resolveWorkers 2 (some 5) = if (2 : Int) < 1 then 1 else 2 :=
  ⟨by decide, (claim_workers_resolution_amended).2.2.1 2 5 (by decide)⟩

/-- C5: the completion poller is the unbounded busy-wait
`while True: if artifact exists: break`.  (1) It terminates (with some
fuel) iff the artifact-existence check eventually answers yes; (2) with
an oracle that never answers yes, the loop spins forever (no fuel
suffices, and there is no backoff or timeout path in the definition);
(3) consequently an entire run whose single job's artifact never appears
hangs indefinitely: for every fuel bound, `mainRun` is still spinning
inside the first poll. -/
theorem claim_poller_busy_wait :
    (∀ found : Nat → Bool,
      (∃ fuel, (pollFirst found 0 fuel).isSome) ↔ (∃ t, found t = true))
    ∧ (∀ found : Nat → Bool, (∀ t, found t = false) →
        ∀ (fuel start : Nat), pollFirst found start fuel = none)
    ∧ (∀ fuel : Nat, mainRun 1 none ["1,2,1"] (fun _ _ => false)
        (fun _ => ["0 5", "1 7"]) fuel = Outcome.hang [Act.submit 1, Act.wait 1]) := by
  refine ⟨?_, ?_, ?_⟩
  · intro found
    constructor
    · rintro ⟨fuel, hs⟩
      obtain ⟨t, ht⟩ := Option.isSome_iff_exists.mp hs
      exact ⟨t, pollFirst_some found fuel 0 t ht⟩
    · rintro ⟨t, ht⟩
      refine ⟨t + 1, pollFirst_of_found found t ht (t + 1) 0 (by omega) (by omega)⟩
  · exact fun found h fuel s => pollFirst_none found h fuel s
  · intro fuel
    have h4 : pollFirst (fun _ => false) 0 fuel = none :=
      pollFirst_none _ (fun _ => rfl) fuel 0
    simp only [mainRun]
    have h1 : pointListOf ["1,2,1"] = [["1", "2", "1"]] := by decide
    rw [h1]
    have h2 : subPhase (resolveWorkers 1 none) [["1", "2", "1"]] [] []
        = ([Act.submit 1, Act.wait 1], [1], true) := by decide
    rw [h2]
    have h3 : ([["1", "2", "1"]] : List (List String)).enum = [(0, ["1", "2", "1"])] := by decide
    rw [h3]
    simp only [aggLoop, h4]

theorem claim_poller_busy_wait_witness :
    (∀ t : Nat, (fun (_ : Nat) => false) t = false)
    ∧ pollFirst (fun _ => false) 0 5 = none :=
  ⟨fun _ => rfl, (claim_poller_busy_wait).2.1 (fun _ => false) (fun _ => rfl) 5 0⟩

/-- C6 counterexample: on the listing whose second line is the malformed
`"10.5,20.3"` (two fields, no jobId), parsing does *not* fail — it
returns both lines comma-split, there is no `MalformedInputError`
anywhere in the program — and the run then aborts only at submission
time, *after* the job of the first line has already been submitted
(trace `[submit 1, wait 1]`). -/
theorem claim_malformed_input_cex :
    pointListOf ["1,2,1", "10.5,20.3"] = [["1", "2", "1"], ["10.5", "20.3"]]
    ∧ mainRun 1 none ["1,2,1", "10.5,20.3"] (fun _ _ => true) (fun _ => ["0 5", "1 7"]) 1
        = Outcome.fatal [Act.submit 1, Act.wait 1] := by decide

/-- C6 amended: the parse phase performs no validation and cannot fail:
every non-blank line is kept (one parsed point per non-blank line) and
blank lines are skipped; a line without a parsable third field makes the
run abort only when the submission loop reaches that point
(`int(point[2])` raises), leaving the jobs of all earlier lines already
submitted, as the concrete `"10.5,20.3"` run shows. -/
theorem claim_malformed_input_amended :
    (∀ lines : List String,
      (pointListOf lines).length = (lines.filter (fun l => !(l == ""))).length)
    ∧ (∀ lines : List String, pointListOf ("" :: lines) = pointListOf lines)
    ∧ (∀ (W : Int) (p : List String) (rest : List (List String)) (s : List Int)
        (tr : List Act), jobIdOf p = none → subPhase W (p :: rest) s tr = (tr, s, false))
    ∧ jobIdOf ["10.5", "20.3"] = none
    ∧ mainRun 1 none ["1,2,1", "10.5,20.3"] (fun _ _ => true) (fun _ => ["0 5", "1 7"]) 1
        = Outcome.fatal [Act.submit 1, Act.wait 1] := by
  refine ⟨?_, ?_, ?_, by decide, by decide⟩
  · intro lines
    induction lines with
    | nil => rfl
    | cons l ls ih =>
        by_cases h : l = ""
        · subst h
          simpa [pointListOf, List.filterMap_cons, List.filter_cons] using ih
        · have hb : (l == "") = false := beq_eq_false_iff_ne.mpr h
          simp only [pointListOf, List.filterMap_cons, List.filter_cons, h, if_neg,
            hb, Bool.not_false, if_pos, List.length_cons] at *
          simp [ih]
  · intro lines
    simp [pointListOf, List.filterMap_cons]
  · intro W p rest s tr h
    simp [subPhase, h]

theorem claim_malformed_input_amended_witness :
    jobIdOf ["10.5", "20.3"] = none
    ∧ subPhase 1 [["10.5", "20.3"]] [1] [Act.submit 1, Act.wait 1]
        = ([Act.submit 1, Act.wait 1], [1], false) :=
  ⟨by decide,
    (claim_malformed_input_amended).2.2.1 1 ["10.5", "20.3"] [] [1]
      [Act.submit 1, Act.wait 1] (by decide)⟩

/-- C7 counterexample: a summary report with no "visible" (category 1)
row but with a second line (here the null-category row `"* 50"`) does
*not* make result extraction fail: the code blindly takes the second
line's second field, records 50, and the run completes successfully —
there is no `ResultParseError` and no abort. -/
theorem claim_result_parse_cex :
    extractCount ["0 100", "* 50"] = some 50
    ∧ mainRun 1 none ["1,2,1"] (fun _ _ => true) (fun _ => ["0 100", "* 50"]) 1
        = Outcome.success [Act.submit 1, Act.wait 1, Act.stats 1, Act.rasterize,
            Act.removeRasters, Act.removeVector] [("1", "2", 50)] := by decide

/-- C7 amended: result extraction never inspects category labels; it
reads the report's second line and that line's second space-separated
field.  It fails — aborting the run through an unhandled exception, the
program defines no `ResultParseError` — exactly when that access or the
integer parse fails, e.g. for a report with fewer than two lines; a
report lacking a visible row but having a second line silently records
that line's count. -/
theorem claim_result_parse_amended :
    (∀ report : List String, report.length < 2 → extractCount report = none)
    ∧ extractCount ["0 100"] = none
    ∧ mainRun 1 none ["1,2,1"] (fun _ _ => true) (fun _ => ["0 100"]) 1
        = Outcome.fatal [Act.submit 1, Act.wait 1, Act.stats 1]
    ∧ extractCount ["0 100", "* 50"] = some 50 := by
  refine ⟨?_, by decide, by decide, by decide⟩
  · intro report h
    unfold extractCount
    have hn : report.get? 1 = none := List.get?_eq_none.mpr (by omega)
    rw [hn]

theorem claim_result_parse_amended_witness :
    (["0 100"] : List String).length < 2 ∧ extractCount ["0 100"] = none :=
  ⟨by decide, (claim_result_parse_amended).1 ["0 100"] (by decide)⟩

/-- C8 counterexample: a fully occluded observer — binary viewshed with
no visible cells, so the `r.stats -c` report has the single line
`"0 100"` and no category-1 row — does *not* yield a recorded count of
0: extraction raises (`splitlines()[1]` is out of range) and the whole
run aborts with a nonzero exit code. -/
theorem claim_nonneg_occluded_cex :
    mainRun 1 none ["1,2,1"] (fun _ _ => true) (fun _ => ["0 100"]) 1
        = Outcome.fatal [Act.submit 1, Act.wait 1, Act.stats 1]
    ∧ exitCode (Outcome.fatal [Act.submit 1, Act.wait 1, Act.stats 1]) = some 1 := by decide

/-- C8 amended: every recorded count is the integer parsed from the
second line, second space-separated field of that job's report, and is
therefore non-negative whenever that field carries no minus sign (as
`r.stats -c` count fields, unsigned digit strings, never do).  A fully
occluded observer however does not yield 0: with a single-line report
the run aborts (exit code 1), and with a null-category second row the
code records that row's count instead. -/
theorem claim_nonneg_occluded_amended :
    (∀ (s : String) (k : Int), pyInt s = some k →
        (pyStrip s).toList.head? ≠ some '-' → 0 ≤ k)
    ∧ (∀ (report : List String) (k : Int), extractCount report = some k →
        ∃ line f, report.get? 1 = some line ∧ (pySplitChar ' ' line).get? 1 = some f ∧
          pyInt f = some k)
    ∧ mainRun 1 none ["1,2,1"] (fun _ _ => true) (fun _ => ["0 100"]) 1
        = Outcome.fatal [Act.submit 1, Act.wait 1, Act.stats 1]
    ∧ mainRun 1 none ["1,2,1"] (fun _ _ => true) (fun _ => ["0 100", "* 50"]) 1
        = Outcome.success [Act.submit 1, Act.wait 1, Act.stats 1, Act.rasterize,
            Act.removeRasters, Act.removeVector] [("1", "2", 50)] := by
  refine ⟨?_, ?_, by decide, by decide⟩
  · intro s k hk hhead
    unfold pyInt at hk
    cases hl : (pyStrip s).toList with
    | nil => rw [hl] at hk; simp at hk
    | cons c rest =>
        rw [hl] at hk
        dsimp only at hk
        rw [hl] at hhead
        simp only [List.head?_cons, ne_eq, Option.some.injEq] at hhead
        by_cases hplus : c = '+'
        · rw [if_pos hplus] at hk
          obtain ⟨n, hn, hkn⟩ := Option.map_eq_some'.mp hk
          rw [← hkn]
          exact Int.ofNat_nonneg n
        · rw [if_neg hplus] at hk
          rw [if_neg hhead] at hk
          obtain ⟨n, hn, hkn⟩ := Option.map_eq_some'.mp hk
          rw [← hkn]
          exact Int.ofNat_nonneg n
  · intro report k hk
    unfold extractCount at hk
    cases hline : report.get? 1 with
    | none => rw [hline] at hk; simp at hk
    | some line =>
        rw [hline] at hk
        dsimp only at hk
        cases hf : (pySplitChar ' ' line).get? 1 with
        | none => rw [hf] at hk; simp at hk
        | some f =>
            rw [hf] at hk
            exact ⟨line, f, rfl, hf, hk⟩

theorem claim_nonneg_occluded_amended_witness :
    pyInt "50" = some 50
    ∧ (pyStrip "50").toList.head? ≠ some '-'
    ∧ (0 : Int) ≤ 50 :=
  ⟨by decide, by decide, (claim_nonneg_occluded_amended).1 "50" 50 (by decide) (by decide)⟩

/-- C9 counterexample: a fatal run (submission-time failure on the
malformed second line) produces no output raster and exits non-zero as
the claim says, but contrary to the claim the per-job temporary
artifacts are *not* cleaned up: the aborted run's trace contains neither
`g.remove` action (nor the rasterization) — job 1's `tempViewsh1` is
left behind. -/
theorem claim_cleanup_on_abort_cex :
    mainRun 1 none ["1,2,1", "10.5,20.3"] (fun _ _ => true) (fun _ => ["0 5", "1 7"]) 1
        = Outcome.fatal [Act.submit 1, Act.wait 1]
    ∧ Act.removeRasters ∉ [Act.submit 1, Act.wait 1]
    ∧ Act.removeVector ∉ [Act.submit 1, Act.wait 1]
    ∧ Act.rasterize ∉ [Act.submit 1, Act.wait 1]
    ∧ exitCode (Outcome.fatal [Act.submit 1, Act.wait 1]) = some 1 := by decide

/-- C9 amended: on any fatal error the run produces no output raster
(no `rasterize` action in the trace) and the process exit code is 1
(non-zero), but no cleanup is attempted either: the `g.remove` calls are
reached only on the success path, so neither `remove` action occurs in a
fatal trace and the temporary artifacts are left behind. -/
theorem claim_cleanup_on_abort_amended (cpuCount : Int) (env : Option Int)
    (lines : List String) (found : Nat → Nat → Bool) (statsFor : Nat → List String)
    (fuel : Nat) (tr : List Act)
    (h : mainRun cpuCount env lines found statsFor fuel = Outcome.fatal tr) :
    exitCode (Outcome.fatal tr) = some 1
    ∧ Act.rasterize ∉ tr ∧ Act.removeRasters ∉ tr ∧ Act.removeVector ∉ tr := by
  have hacts := mainRun_fatal_acts cpuCount env lines found statsFor fuel tr h
  refine ⟨rfl, ?_, ?_, ?_⟩
  · intro hmem
    rcases hacts _ hmem with ⟨c, hc⟩ | ⟨c, hc⟩ | ⟨j, hc⟩ <;> simp at hc
  · intro hmem
    rcases hacts _ hmem with ⟨c, hc⟩ | ⟨c, hc⟩ | ⟨j, hc⟩ <;> simp at hc
  · intro hmem
    rcases hacts _ hmem with ⟨c, hc⟩ | ⟨c, hc⟩ | ⟨j, hc⟩ <;> simp at hc

theorem claim_cleanup_on_abort_amended_witness :
    (mainRun 1 none ["1,2,1", "10.5,20.3"] (fun _ _ => true) (fun _ => ["0 5", "1 7"]) 1
        = Outcome.fatal [Act.submit 1, Act.wait 1])
    ∧ (exitCode (Outcome.fatal [Act.submit 1, Act.wait 1]) = some 1
        ∧ Act.rasterize ∉ [Act.submit 1, Act.wait 1]
        ∧ Act.removeRasters ∉ [Act.submit 1, Act.wait 1]
        ∧ Act.removeVector ∉ [Act.submit 1, Act.wait 1]) :=
  ⟨by decide,
    claim_cleanup_on_abort_amended 1 none ["1,2,1", "10.5,20.3"] (fun _ _ => true)
      (fun _ => ["0 5", "1 7"]) 1 [Act.submit 1, Act.wait 1] (by decide)⟩
